import Mathlib

/-!
Verification development for the stalemate-placement program (stalemate.h /
stalemate.cpp).  The C++ source is shallowly embedded: the global 8x8
`Grid<char> _board` becomes an explicit `Board` value threaded through every
operation, Stanford `Set<GridLocation>` becomes `Finset Loc`, Stanford
`Map<char, Vector<GridLocation>>` (an ordered map, keys iterated in ascending
char order) becomes an association list sorted by key, and Stanford `Vector`
becomes `List`.  Operations that can call `error(...)` in C++ (invalid piece
kind, out-of-range vector index, out-of-bounds grid write) return `Option`.
-/

set_option maxRecDepth 100000

namespace Martin

/-- A `GridLocation`: integer row and column (C++ `int`). -/
structure Loc where
  row : Int
  col : Int
  deriving DecidableEq, Repr

/-- The board: contents of each square.  `'E'` marks an empty square; the
grid in the source is always 8x8 (`initializeBoard` / `clearBoard`). -/
abbrev Board := Loc → Char

/-- `Grid::inBounds` for the 8x8 board. -/
def inBoundsB (l : Loc) : Bool :=
  0 ≤ l.row && l.row < 8 && 0 ≤ l.col && l.col < 8

/-- Writing `_board[loc] = c`; Stanford `Grid` raises an error on an
out-of-bounds index, hence `Option`. -/
def boardSet (b : Board) (loc : Loc) (c : Char) : Option Board :=
  if inBoundsB loc then some (fun l => if l = loc then c else b l) else none

/-- The all-empty board (`clearBoard`). -/
def emptyBoard : Board := fun _ => 'E'

/-- Offsets `-1, 0, 1` used by the adjacency loops in the source. -/
def offsets : List Int := [-1, 0, 1]

/-- `getAdjacentLocs`: the in-bounds squares of the 3x3 neighborhood of
`loc`, including `loc` itself. -/
def getAdjacentLocs (loc : Loc) : Finset Loc :=
  ((offsets.flatMap fun i => offsets.map fun j =>
      Loc.mk (loc.row + i) (loc.col + j)).filter fun l => inBoundsB l).toFinset

/-- One ray of `rowAttackingLocs` / `diagonalAttackingLocs`: starting from the
square next to `loc` in direction `(dr, dc)`, collect squares while they are
in bounds and empty.  The C++ `while` loop needs no fuel; on the 8x8 board a
ray visits at most 8 squares, so fuel 8 reproduces it exactly. -/
def ray (b : Board) (dr dc : Int) : Loc → Nat → List Loc
  | _, 0 => []
  | loc, fuel + 1 =>
    let nxt : Loc := ⟨loc.row + dr, loc.col + dc⟩
    if inBoundsB nxt && (b nxt == 'E') then nxt :: ray b dr dc nxt fuel else []

/-- `rowAttackingLocs`: union of the four orthogonal rays. -/
def rowAttackingLocs (b : Board) (loc : Loc) : Finset Loc :=
  (ray b 1 0 loc 8).toFinset ∪ (ray b 0 1 loc 8).toFinset ∪
    (ray b (-1) 0 loc 8).toFinset ∪ (ray b 0 (-1) loc 8).toFinset

/-- `diagonalAttackingLocs`: union of the four diagonal rays. -/
def diagonalAttackingLocs (b : Board) (loc : Loc) : Finset Loc :=
  (ray b 1 1 loc 8).toFinset ∪ (ray b (-1) (-1) loc 8).toFinset ∪
    (ray b 1 (-1) loc 8).toFinset ∪ (ray b (-1) 1 loc 8).toFinset

/-- The eight knight offsets of case `'H'`. -/
def knightDirs : List (Int × Int) :=
  [(1, 2), (2, 1), (1, -2), (2, -1), (-1, 2), (-2, 1), (-1, -2), (-2, -1)]

/-- `pieceAttackingLocs`: squares attacked by `piece` standing on `pieceLoc`
on board `b`.  The `default` branch calls `error(...)`, modelled by `none`. -/
def pieceAttackingLocs (b : Board) (piece : Char) (pieceLoc : Loc) :
    Option (Finset Loc) :=
  if piece = 'K' then
    some (((offsets.flatMap fun i => offsets.map fun j =>
        Loc.mk (pieceLoc.row + i) (pieceLoc.col + j)).filter fun l =>
          inBoundsB l && (b l == 'E') && l != pieceLoc).toFinset)
  else if piece = 'Q' then
    some (rowAttackingLocs b pieceLoc ∪ diagonalAttackingLocs b pieceLoc)
  else if piece = 'R' then some (rowAttackingLocs b pieceLoc)
  else if piece = 'H' then
    some (((knightDirs.map fun d =>
        Loc.mk (pieceLoc.row + d.1) (pieceLoc.col + d.2)).filter fun l =>
          inBoundsB l).toFinset)
  else if piece = 'B' then some (diagonalAttackingLocs b pieceLoc)
  else none

/-- Stanford `Map<char, Vector<GridLocation>>`: an association list whose
keys are kept in ascending char order (the order `Map::keys()` iterates). -/
abbrev StMap := List (Char × List Loc)

/-- `m[k]` read access (missing key reads as the empty vector). -/
def mapGet (m : StMap) (k : Char) : List Loc :=
  ((m.find? fun kv => kv.1 == k).map Prod.snd).getD []

/-- `m[k] = v`: update the entry for `k`, inserting it at its sorted
position when absent (Stanford `Map::operator[]` auto-inserts). -/
def mapSet : StMap → Char → List Loc → StMap
  | [], k, v => [(k, v)]
  | (k1, v1) :: rest, k, v =>
    if k < k1 then (k, v) :: (k1, v1) :: rest
    else if k = k1 then (k, v) :: rest
    else (k1, v1) :: mapSet rest k v

/-- `removeAttackedLocs`: subtract the squares attacked by `(piece, pieceLoc)`
from the running adjacency set. -/
def removeAttackedLocs (b : Board) (kingAdjacentLocs : Finset Loc)
    (piece : Char) (pieceLoc : Loc) : Option (Finset Loc) :=
  (pieceAttackingLocs b piece pieceLoc).map fun att => kingAdjacentLocs \ att

/-- `isStalemate`: starting from the king adjacency, subtract the attack set
of every (kind, square) pair of `pieceLocs` (keys in ascending order, squares
in vector order), then test `size == 1 && contains(kingLoc)`. -/
def isStalemate (b : Board) (kingLoc : Loc) (pieceLocs : StMap) : Option Bool :=
  (pieceLocs.foldlM
      (fun s (kv : Char × List Loc) =>
        kv.2.foldlM (fun s2 j => removeAttackedLocs b s2 kv.1 j) s)
      (getAdjacentLocs kingLoc)).map
    fun s => decide (s.card = 1 ∧ kingLoc ∈ s)

/-- `numAttackingAdjacent`: `adjacents.size() - (adjacents - attacks).size()`
(the difference is never negative since `adjacents - attacks ⊆ adjacents`). -/
def numAttackingAdjacent (b : Board) (piece : Char) (loc : Loc)
    (adjacents : Finset Loc) : Option Nat :=
  (pieceAttackingLocs b piece loc).map fun att =>
    adjacents.card - (adjacents \ att).card

/-- The 64 board squares in the row-major order scanned by the nested
`for (i) for (j)` loops of `greedyHelper` and `placeUselessPieces`. -/
def allSquares : List Loc :=
  (List.range 8).flatMap fun i =>
    (List.range 8).map fun j => Loc.mk (Int.ofNat i) (Int.ofNat j)

/-- One iteration of the `greedyHelper` scan: squares inside `adjacents` are
skipped; otherwise the square's score is compared with the running best
(`n > best` restarts the list, `n == best` appends). -/
def greedyStep (b : Board) (piece : Char) (adjacents : Finset Loc)
    (st : Option (Nat × List Loc)) (loc : Loc) : Option (Nat × List Loc) :=
  match st with
  | none => none
  | some (best, res) =>
    if loc ∈ adjacents then some (best, res)
    else
      match numAttackingAdjacent b piece loc adjacents with
      | none => none
      | some n =>
        if n > best then some (n, [loc])
        else if n = best then some (best, res ++ [loc])
        else some (best, res)

/-- `greedyHelper`: scan all 64 squares row-major, keeping the squares with
the maximal score (running best starts at 0). -/
def greedyHelper (b : Board) (piece : Char) (adjacents : Finset Loc) :
    Option (List Loc) :=
  (allSquares.foldl (greedyStep b piece adjacents) (some (0, []))).map Prod.snd

/-- `notAttackingKing`: `adjacents == adjacents - attacking`. -/
def notAttackingKing (b : Board) (piece : Char) (loc : Loc) (kingLoc : Loc) :
    Option Bool :=
  (pieceAttackingLocs b piece loc).map fun att =>
    decide (getAdjacentLocs kingLoc = getAdjacentLocs kingLoc \ att)

/-- `calculateExclusion`: reset the exclusion set to the king adjacency and
add every square recorded in `result`. -/
def calculateExclusion (kingLoc : Loc) (result : StMap) : Finset Loc :=
  result.foldl (fun s kv => kv.2.foldl (fun s2 j => insert j s2) s)
    (getAdjacentLocs kingLoc)

/-- The scanning loop of `placeUselessPieces`: `piece` is the piece in hand,
`pieces` the ones still waiting.  A square is used when `notAttackingKing`
holds and it is outside `exclusion`; when the scan runs out of squares the
remaining pieces are silently dropped. -/
def pulScan (piece : Char) (kingLoc : Loc) (exclusion : Finset Loc) :
    Board → List Char → StMap → List Loc → Option (Board × StMap)
  | b, _, result, [] => some (b, result)
  | b, pieces, result, loc :: rest =>
    match notAttackingKing b piece loc kingLoc with
    | none => none
    | some na =>
      if na && !(loc ∈ exclusion) then
        match boardSet b loc piece with
        | none => none
        | some b2 =>
          let result2 := mapSet result piece (mapGet result piece ++ [loc])
          match pieces with
          | [] => some (b2, result2)
          | p :: ps => pulScan p kingLoc exclusion b2 ps result2 rest
      else pulScan piece kingLoc exclusion b pieces result rest

/-- `placeUselessPieces`: place the leftover pieces one after the other on
the first acceptable square of the row-major scan. -/
def placeUselessPieces (b : Board) (pieces : List Char)
    (exclusion : Finset Loc) (kingLoc : Loc) (result : StMap) :
    Option (Board × StMap) :=
  match pieces with
  | [] => some (b, result)
  | p :: ps => pulScan p kingLoc exclusion b ps result allSquares

/-- Search state of `placePieceGreedy`: the global board, the exclusion set
and the result map (the three pieces of state the C++ mutates). -/
structure SearchSt where
  board : Board
  excl : Finset Loc
  result : StMap

/-- `result[piece].remove(result[piece].size() - 1)`: Stanford `Vector`
raises an error when the vector is empty (index `-1`). -/
def vecPopLast (v : List Loc) : Option (List Loc) :=
  if v.isEmpty then none else some v.dropLast

/-- The candidate loop of `placePieceGreedy` for the piece at the current
index, parameterised by the recursive call `rec` for the next index.
Trying a candidate occupies board, result and exclusion set; on failure the
board and the last result entry are undone but the candidate square is left
in the exclusion set; when the loop ends, the exclusion set is recomputed
from the result and `false` is returned. -/
def tryCandsAux (rec : SearchSt → Option (Bool × SearchSt)) (piece : Char)
    (kingLoc : Loc) : List Loc → SearchSt → Option (Bool × SearchSt)
  | [], st => some (false, { st with excl := calculateExclusion kingLoc st.result })
  | loc :: rest, st =>
    if loc ∈ st.excl then tryCandsAux rec piece kingLoc rest st
    else
      match boardSet st.board loc piece with
      | none => none
      | some b2 =>
        match rec ⟨b2, insert loc st.excl,
            mapSet st.result piece (mapGet st.result piece ++ [loc])⟩ with
        | none => none
        | some (true, st2) => some (true, st2)
        | some (false, st2) =>
          match boardSet st2.board loc 'E' with
          | none => none
          | some b3 =>
            match vecPopLast (mapGet st2.result piece) with
            | none => none
            | some v =>
              tryCandsAux rec piece kingLoc rest
                ⟨b3, st2.excl, mapSet st2.result piece v⟩

/-- `placePieceGreedy`, with explicit fuel for the recursion on
`pieceIndex` (each recursive call consumes one unit; fuel
`pieces.length + 1` is enough for a call starting at index 0, see
`placePieceGreedy`).  First test `isStalemate`, then the index guard
`pieceIndex > pieces.size() - 1` (C++ `int` arithmetic), then run the
candidate loop on `moves[pieces[pieceIndex]]`. -/
def ppg : Nat → List Char → Nat → StMap → SearchSt → Loc →
    Option (Bool × SearchSt)
  | 0, _, _, _, _, _ => none
  | fuel + 1, pieces, pieceIndex, moves, st, kingLoc =>
    match isStalemate st.board kingLoc st.result with
    | none => none
    | some true => some (true, st)
    | some false =>
      if (pieceIndex : Int) > (pieces.length : Int) - 1 then some (false, st)
      else
        tryCandsAux (fun st2 => ppg fuel pieces (pieceIndex + 1) moves st2 kingLoc)
          (pieces.getD pieceIndex 'E') kingLoc
          (mapGet moves (pieces.getD pieceIndex 'E')) st

/-- `placePieceGreedy` as called from `calculateStalemate`: the recursion
visits indices `0, 1, …, pieces.size()`, so `pieces.length + 1` fuel units
reproduce the C++ recursion exactly. -/
def placePieceGreedy (pieces : List Char) (moves : StMap) (st : SearchSt)
    (kingLoc : Loc) : Option (Bool × SearchSt) :=
  ppg (pieces.length + 1) pieces 0 moves st kingLoc

/-- The fixed-index removal loop of `removeUsedPieces`: remove
`n` elements at index `idx` (`none` models `indexOf` returning `-1`;
Stanford `Vector::remove` raises an error on an out-of-range index). -/
def removeNAt (l : List Char) (idx : Option Nat) : Nat → Option (List Char)
  | 0 => some l
  | n + 1 =>
    match idx with
    | none => none
    | some i =>
      if i < l.length then removeNAt (l.eraseIdx i) (some i) n else none

/-- `removeUsedPieces`: sort the piece list ascending, then for every key of
`result` (ascending) remove `result[key].size()` elements at the first index
of that key. -/
def removeUsedPieces (pieces : List Char) (result : StMap) :
    Option (List Char) :=
  result.foldlM
    (fun ps kv => removeNAt ps (ps.findIdx? fun c => c == kv.1) kv.2.length)
    (pieces.insertionSort (· ≤ ·))

/-- The relabelling loop of `sort`: for `i` from `0` to `index - 1`, set
`pieces[index + i] = 'R'` then `pieces[i] = 'Q'`.  The C++ `for` loop runs
exactly `index` times (unless it dies on an out-of-range index first), so it
is compiled structurally on the countdown `d = index - i`.  Stanford
`Vector` indexing raises an error out of range, hence `Option`;
`pieces[i]` with `i < index ≤ index + i < length` is always in range. -/
def qLoop (index : Nat) : Nat → Nat → List Char → Option (List Char)
  | _, 0, l => some l
  | i, d + 1, l =>
    if index + i < l.length then
      qLoop index (i + 1) d ((l.set (index + i) 'R').set i 'Q')
    else none

/-- `sort`: pop the king, sort the rest ascending, reverse (descending), run
the Queen/Rook relabelling loop when a Queen exists, and push the king back
in front.  `remove(0)` on an empty vector raises an error. -/
def sortPieces : List Char → Option (List Char)
  | [] => none
  | king :: rest =>
    let l := (rest.insertionSort (· ≤ ·)).reverse
    match l.findIdx? fun c => c == 'Q' with
    | none => some (king :: l)
    | some index => (qLoop index 0 index l).map fun l2 => king :: l2

/-- `calculateStalemate`: compute the adjacency, rank candidates for every
piece kind, run the greedy search from index 0 with the adjacency as initial
exclusion and an empty result, recompute the exclusion, drop the used pieces
and place the leftovers.  Returns the result map together with the final
board (the C++ global `_board`). -/
def calculateStalemate (b : Board) (kingLoc : Loc) (pieces : List Char) :
    Option (StMap × Board) := do
  let adjacentLocs := getAdjacentLocs kingLoc
  let moves ← pieces.foldlM
    (fun m c => (greedyHelper b c adjacentLocs).map fun v => mapSet m c v)
    ([] : StMap)
  let (_, st) ← placePieceGreedy pieces moves ⟨b, adjacentLocs, []⟩ kingLoc
  let exclusion := calculateExclusion kingLoc st.result
  let pieces2 ← removeUsedPieces pieces st.result
  let (b2, result2) ← placeUselessPieces st.board pieces2 exclusion kingLoc st.result
  return (result2, b2)

/-! ### Concrete boards and inputs used by the concrete theorems -/

/-- Board holding only the defending king on square (1,1). -/
def boardK11 : Board := fun l => if l = ⟨1, 1⟩ then 'K' else 'E'

/-- Board holding only the defending king on square (0,0). -/
def boardK00 : Board := fun l => if l = ⟨0, 0⟩ then 'K' else 'E'

/-- A fully occupied board: every square holds a piece, so sliding pieces
attack nothing (`ray` stops immediately on a non-`'E'` square). -/
def fullBoardR : Board := fun _ => 'R'

/-- The squares recorded in a result map, as a set. -/
def resultSquares (m : StMap) : Finset Loc :=
  m.foldl (fun s kv => s ∪ kv.2.toFinset) ∅

/-! ### Theorems -/

/-- C1: with the global board all empty except the defending king at (1,1),
`calculateStalemate ⟨1,1⟩ ['K','Q','Q']` returns a placement map on which
`isStalemate ⟨1,1⟩` (run on the resulting board) is true.  The run places
the attacking king at (1,3) and the queens at (0,3) and (3,0). -/
theorem C1_endToEnd :
    (do
      let (result, b2) ← calculateStalemate boardK11 ⟨1, 1⟩ ['K', 'Q', 'Q']
      isStalemate b2 ⟨1, 1⟩ result) = some true := by
  decide

/-- C9: `pieceAttackingLocs` fails (returns `none`, the `error(...)` branch)
exactly on characters other than the five piece kinds `K`, `Q`, `R`, `B`,
`H`; on those five it always produces an attack set. -/
theorem C9_invalidPieceKind (b : Board) (c : Char) (loc : Loc) :
    (c ∉ (['K', 'Q', 'R', 'B', 'H'] : List Char) →
        pieceAttackingLocs b c loc = none) ∧
    (c ∈ (['K', 'Q', 'R', 'B', 'H'] : List Char) →
        (pieceAttackingLocs b c loc).isSome = true) := by
  constructor
  · intro h
    simp only [List.mem_cons, List.not_mem_nil, or_false, not_or] at h
    obtain ⟨h1, h2, h3, h4, h5⟩ := h
    simp [pieceAttackingLocs, h1, h2, h3, h4, h5]
  · intro h
    fin_cases h <;> simp [pieceAttackingLocs]

/-- C9 witness: the invalid kind `'Z'` on the empty board fails, via
`C9_invalidPieceKind`. -/
theorem C9_witness : pieceAttackingLocs emptyBoard 'Z' ⟨0, 0⟩ = none :=
  (C9_invalidPieceKind emptyBoard 'Z' ⟨0, 0⟩).1 (by decide)

/-- C6 (code bug): sorting `['K','R','Q','Q']` yields `['K','Q','R','Q']` —
a Queen AFTER a Rook — although the header documentation of `sort` promises
"most to least efficient (Queen, Rook, Bishop, Knight) while keeping King at
the front".  The relabelling loop writes `'R'` over the `index` entries
following the first Queen and `'Q'` over the first `index` entries, which is
only correct when the numbers of Queens and of Rooks coincide (on
`['K','R','R','Q']` the same loop even indexes out of range and errors). -/
theorem C6_sort_failing :
    sortPieces ['K', 'R', 'Q', 'Q'] = some ['K', 'Q', 'R', 'Q'] ∧
    sortPieces ['K', 'R', 'R', 'Q'] = none := by
  decide

/-- C3 counterexample: on a fully occupied board a queen attacks no square
at all, so no square outside the adjacency of (1,1) attacks a strictly
positive number of adjacency squares — yet `greedyHelper` returns all 55
squares outside the adjacency (every square ties the initial best score 0
and is appended), not the empty list. -/
theorem C3_counterexample :
    (∀ loc ∈ allSquares, loc ∉ getAdjacentLocs ⟨1, 1⟩ →
        numAttackingAdjacent fullBoardR 'Q' loc (getAdjacentLocs ⟨1, 1⟩) =
          some 0) ∧
    greedyHelper fullBoardR 'Q' (getAdjacentLocs ⟨1, 1⟩) ≠ some [] := by
  decide

/-- Helper for C3: folding `greedyStep` over squares that all score zero
appends every square outside `adjacents`, keeping the best score at 0. -/
theorem greedy_fold_allZero (b : Board) (piece : Char) (adjacents : Finset Loc) :
    ∀ (l : List Loc) (acc : List Loc),
      (∀ loc ∈ l, loc ∉ adjacents →
        numAttackingAdjacent b piece loc adjacents = some 0) →
      l.foldl (greedyStep b piece adjacents) (some (0, acc)) =
        some (0, acc ++ l.filter fun x => decide (x ∉ adjacents)) := by
  intro l
  induction l with
  | nil => intro acc _; simp
  | cons x xs ih =>
    intro acc h
    by_cases hx : x ∈ adjacents
    · rw [List.foldl_cons]
      have hstep : greedyStep b piece adjacents (some (0, acc)) x = some (0, acc) := by
        simp [greedyStep, hx]
      rw [hstep, ih acc fun loc hl => h loc (List.mem_cons_of_mem _ hl)]
      simp [List.filter_cons, hx]
    · rw [List.foldl_cons]
      have h0 := h x (List.mem_cons_self x xs) hx
      have hstep : greedyStep b piece adjacents (some (0, acc)) x =
          some (0, acc ++ [x]) := by
        simp [greedyStep, hx, h0]
      rw [hstep, ih (acc ++ [x]) fun loc hl => h loc (List.mem_cons_of_mem _ hl)]
      simp [List.filter_cons, hx]

/-- C3 amended: when no square outside the adjacency set attacks a strictly
positive number of adjacency squares, `greedyHelper` returns the list of ALL
in-bounds squares outside the adjacency set, in row-major scan order (each
achieving the initial best score 0) — not the empty list. -/
theorem C3_greedyHelper_zeroScores (b : Board) (piece : Char)
    (adjacents : Finset Loc)
    (h : ∀ loc ∈ allSquares, loc ∉ adjacents →
        numAttackingAdjacent b piece loc adjacents = some 0) :
    greedyHelper b piece adjacents =
      some (allSquares.filter fun x => decide (x ∉ adjacents)) := by
  unfold greedyHelper
  rw [greedy_fold_allZero b piece adjacents allSquares [] h]
  simp

/-- C3 witness: the amended statement evaluated on the fully occupied board
with the queen and the adjacency of (1,1). -/
theorem C3_witness :
    greedyHelper fullBoardR 'Q' (getAdjacentLocs ⟨1, 1⟩) =
      some (allSquares.filter fun x =>
        decide (x ∉ getAdjacentLocs ⟨1, 1⟩)) :=
  C3_greedyHelper_zeroScores fullBoardR 'Q' (getAdjacentLocs ⟨1, 1⟩) (by decide)

/-- Crafted candidate list for the search counterexamples: the first queen
candidate (5,5) does not produce a stalemate against the king at (0,0), the
second candidate (2,1) does. -/
def c4Moves : StMap := [('Q', [⟨5, 5⟩, ⟨2, 1⟩])]

/-- Entry state of the search counterexamples: board with only the defending
king at (0,0), exclusion set equal to the king adjacency, empty result. -/
def c4Start : SearchSt := ⟨boardK00, getAdjacentLocs ⟨0, 0⟩, []⟩

/-- C4 counterexample: running `placePieceGreedy` (fuel 2 = length + 1) on
one queen with candidates [(5,5), (2,1)] succeeds, but the returned
exclusion set is NOT the union of the king adjacency and the result squares:
the failed candidate (5,5) was undone from board and result yet never
removed from the exclusion set (it is only recomputed after a candidate loop
is exhausted, and the inner recursion returned through the early
`pieceIndex > pieces.size() - 1` guard, which does not recompute). -/
theorem C4_counterexample :
    (ppg 2 ['Q'] 0 c4Moves c4Start ⟨0, 0⟩).map
        (fun p => (p.1,
          decide (p.2.excl = getAdjacentLocs ⟨0, 0⟩ ∪ resultSquares p.2.result))) =
      some (true, false) := by
  decide

/-- C10 counterexample: the same search with only the failing candidate
(5,5) returns `false`, but the result map is `[('Q', [])]`, not the entry
value `[]`: `result[piece].add(loc)` auto-inserted the key `'Q'` and the
undo removed the square but left the key behind, so the map (whose equality
compares key sets) differs from its value at call entry. -/
theorem C10_counterexample :
    (ppg 2 ['Q'] 0 [('Q', [⟨5, 5⟩])] c4Start ⟨0, 0⟩).map
        (fun p => (p.1, p.2.result)) = some (false, [('Q', [])]) ∧
    ([('Q', [])] : StMap) ≠ ([] : StMap) := by
  decide

/-- The five valid piece kind characters. -/
def validKind (c : Char) : Prop := c ∈ (['K', 'Q', 'R', 'B', 'H'] : List Char)

instance validKind.dec : DecidablePred validKind := fun c =>
  decidable_of_iff (c ∈ (['K', 'Q', 'R', 'B', 'H'] : List Char)) Iff.rfl

/-- The attack set with the error collapsed to `∅` (used only to STATE
set-level facts; `pAL_some_of_valid` shows it is the real attack set for
every valid kind). -/
def attD (b : Board) (c : Char) (loc : Loc) : Finset Loc :=
  (pieceAttackingLocs b c loc).getD ∅

theorem pAL_some_of_valid (b : Board) (c : Char) (loc : Loc) (h : validKind c) :
    pieceAttackingLocs b c loc = some (attD b c loc) := by
  unfold validKind at h
  fin_cases h <;> simp [pieceAttackingLocs, attD]

theorem pAL_valid_of_some (b : Board) (c : Char) (loc : Loc) (att : Finset Loc)
    (h : pieceAttackingLocs b c loc = some att) : validKind c := by
  by_contra hv
  simp only [validKind, List.mem_cons, List.not_mem_nil, or_false, not_or] at hv
  obtain ⟨h1, h2, h3, h4, h5⟩ := hv
  simp [pieceAttackingLocs, h1, h2, h3, h4, h5] at h

/-- The (kind, square) pairs recorded in a placement map, in iteration
order. -/
def pairsOf (m : StMap) : List (Char × Loc) :=
  m.flatMap fun kv => kv.2.map fun j => (kv.1, j)

/-- Spec-side formulation for C2: the union of `attacks(kind, square)` over
every (kind, square) pair of the placement. -/
def unionAttacks (b : Board) (m : StMap) : Finset Loc :=
  (pairsOf m).foldl (fun s p => s ∪ attD b p.1 p.2) ∅

theorem foldlM_removeAttacked (b : Board) (c : Char) (hc : validKind c) :
    ∀ (v : List Loc) (s : Finset Loc),
      v.foldlM (fun s2 j => removeAttackedLocs b s2 c j) s =
        some (v.foldl (fun s2 j => s2 \ attD b c j) s) := by
  intro v
  induction v with
  | nil => intro s; rfl
  | cons x xs ih =>
    intro s
    rw [List.foldlM_cons]
    have hx : removeAttackedLocs b s c x = some (s \ attD b c x) := by
      rw [removeAttackedLocs, pAL_some_of_valid b c x hc]; rfl
    rw [hx]
    show xs.foldlM (fun s2 j => removeAttackedLocs b s2 c j) (s \ attD b c x) = _
    rw [ih (s \ attD b c x), List.foldl_cons]

theorem foldlM_isStalemate (b : Board) :
    ∀ (m : StMap) (s : Finset Loc), (∀ kv ∈ m, validKind kv.1) →
      m.foldlM
          (fun s (kv : Char × List Loc) =>
            kv.2.foldlM (fun s2 j => removeAttackedLocs b s2 kv.1 j) s) s =
        some (m.foldl
          (fun s kv => kv.2.foldl (fun s2 j => s2 \ attD b kv.1 j) s) s) := by
  intro m
  induction m with
  | nil => intro s _; rfl
  | cons kv rest ih =>
    intro s hv
    rw [List.foldlM_cons,
      foldlM_removeAttacked b kv.1 (hv kv (List.mem_cons_self kv rest)) kv.2 s]
    show rest.foldlM _ (kv.2.foldl (fun s2 j => s2 \ attD b kv.1 j) s) = _
    rw [ih _ fun kv2 h2 => hv kv2 (List.mem_cons_of_mem _ h2), List.foldl_cons]

theorem foldl_sdiff_union (b : Board) :
    ∀ (ps : List (Char × Loc)) (s a : Finset Loc),
      ps.foldl (fun s2 p => s2 \ attD b p.1 p.2) (s \ a) =
        s \ ps.foldl (fun x p => x ∪ attD b p.1 p.2) a := by
  intro ps
  induction ps with
  | nil => intro s a; rfl
  | cons p ps ih =>
    intro s a
    rw [List.foldl_cons, List.foldl_cons]
    have h1 : (s \ a) \ attD b p.1 p.2 = s \ (a ∪ attD b p.1 p.2) := by
      rw [sdiff_sdiff_left]; rfl
    rw [h1]
    exact ih s (a ∪ attD b p.1 p.2)

theorem nestedFold_eq_pairs (b : Board) :
    ∀ (m : StMap) (s : Finset Loc),
      m.foldl (fun s kv => kv.2.foldl (fun s2 j => s2 \ attD b kv.1 j) s) s =
        (pairsOf m).foldl (fun s2 p => s2 \ attD b p.1 p.2) s := by
  intro m
  induction m with
  | nil => intro s; rfl
  | cons kv rest ih =>
    intro s
    rw [List.foldl_cons, ih]
    show _ = ((kv.2.map fun j => (kv.1, j)) ++ pairsOf rest).foldl _ s
    rw [List.foldl_append, List.foldl_map]

/-- C2: `isStalemate` returns true exactly when subtracting the attack set
of every (kind, square) pair of the placement from the king adjacency
leaves exactly the singleton of the king's own square (stated for
placements with valid piece kinds; an invalid kind aborts with an error). -/
theorem C2_isStalemate_iff (b : Board) (kingLoc : Loc) (m : StMap)
    (hv : ∀ kv ∈ m, validKind kv.1) :
    isStalemate b kingLoc m = some true ↔
      getAdjacentLocs kingLoc \ unionAttacks b m = {kingLoc} := by
  unfold isStalemate
  rw [foldlM_isStalemate b m _ hv, nestedFold_eq_pairs]
  have h2 : (pairsOf m).foldl (fun s2 p => s2 \ attD b p.1 p.2)
      (getAdjacentLocs kingLoc) =
      getAdjacentLocs kingLoc \ unionAttacks b m := by
    conv_lhs => rw [show getAdjacentLocs kingLoc = getAdjacentLocs kingLoc \ ∅ from
      Finset.sdiff_empty.symm]
    rw [foldl_sdiff_union b (pairsOf m) (getAdjacentLocs kingLoc) ∅]
    rfl
  rw [h2]
  simp only [Option.map_some', Option.some.injEq, decide_eq_true_eq]
  constructor
  · rintro ⟨hcard, hmem⟩
    obtain ⟨a, ha⟩ := Finset.card_eq_one.mp hcard
    rw [ha] at hmem ⊢
    rw [Finset.mem_singleton.mp hmem]
  · intro h
    rw [h]
    simp

/-- C2 witness: the repo's own `isStalemate` test position (king at (1,1),
queen (3,0), attacking king (1,3), bishop (3,4), empty board), via
`C2_isStalemate_iff`. -/
theorem C2_witness :
    isStalemate emptyBoard ⟨1, 1⟩
        [('B', [⟨3, 4⟩]), ('K', [⟨1, 3⟩]), ('Q', [⟨3, 0⟩])] = some true ↔
      getAdjacentLocs ⟨1, 1⟩ \
          unionAttacks emptyBoard
            [('B', [⟨3, 4⟩]), ('K', [⟨1, 3⟩]), ('Q', [⟨3, 0⟩])] =
        {⟨1, 1⟩} :=
  C2_isStalemate_iff emptyBoard ⟨1, 1⟩
    [('B', [⟨3, 4⟩]), ('K', [⟨1, 3⟩]), ('Q', [⟨3, 0⟩])] (by decide)

theorem mapGet_cons (k1 : Char) (v1 : List Loc) (rest : StMap) (c : Char) :
    mapGet ((k1, v1) :: rest) c = if k1 = c then v1 else mapGet rest c := by
  by_cases h : k1 = c
  · subst h
    simp [mapGet, List.find?_cons]
  · have hb : (k1 == c) = false := by simp [h]
    simp [mapGet, List.find?_cons, hb, h]

theorem mapGet_mapSet_self (m : StMap) (k : Char) (v : List Loc) :
    mapGet (mapSet m k v) k = v := by
  induction m with
  | nil => simp [mapSet, mapGet_cons]
  | cons kv rest ih =>
    obtain ⟨k1, v1⟩ := kv
    by_cases h1 : k < k1
    · simp [mapSet, h1, mapGet_cons]
    · by_cases h2 : k = k1
      · simp [mapSet, h1, h2, mapGet_cons]
      · have hne : k1 ≠ k := fun hh => h2 hh.symm
        simp [mapSet, h1, h2, mapGet_cons, hne, ih]

theorem mapGet_mapSet_ne (m : StMap) (k : Char) (v : List Loc) (c : Char)
    (h : c ≠ k) : mapGet (mapSet m k v) c = mapGet m c := by
  have hkc : k ≠ c := fun hh => h hh.symm
  induction m with
  | nil => simp [mapSet, mapGet_cons, hkc, mapGet]
  | cons kv rest ih =>
    obtain ⟨k1, v1⟩ := kv
    by_cases h1 : k < k1
    · simp [mapSet, h1, mapGet_cons, hkc]
    · by_cases h2 : k = k1
      · subst h2
        simp [mapSet, h1, mapGet_cons, hkc]
      · simp [mapSet, h1, h2, mapGet_cons, ih]

theorem vecPopLast_append (v : List Loc) (x : Loc) :
    vecPopLast (v ++ [x]) = some v := by
  simp [vecPopLast, List.dropLast_concat]

theorem foldl_insert_toFinset :
    ∀ (v : List Loc) (s : Finset Loc),
      v.foldl (fun s2 j => insert j s2) s = s ∪ v.toFinset := by
  intro v
  induction v with
  | nil => intro s; simp
  | cons x xs ih =>
    intro s
    rw [List.foldl_cons, ih]
    ext a
    simp [or_comm, or_left_comm]

theorem resultSquares_hoist :
    ∀ (m : StMap) (a : Finset Loc),
      m.foldl (fun s kv => s ∪ kv.2.toFinset) a = a ∪ resultSquares m := by
  intro m
  induction m with
  | nil => intro a; simp [resultSquares]
  | cons kv rest ih =>
    intro a
    rw [List.foldl_cons, ih]
    have h2 : resultSquares (kv :: rest) = kv.2.toFinset ∪ resultSquares rest := by
      show (kv :: rest).foldl (fun s kv => s ∪ kv.2.toFinset) ∅ = _
      rw [List.foldl_cons, ih]
      simp
    rw [h2, Finset.union_assoc]

theorem calculateExclusion_eq (kingLoc : Loc) (m : StMap) :
    calculateExclusion kingLoc m = getAdjacentLocs kingLoc ∪ resultSquares m := by
  have key : ∀ (mm : StMap) (s : Finset Loc),
      mm.foldl (fun s kv => kv.2.foldl (fun s2 j => insert j s2) s) s =
        s ∪ resultSquares mm := by
    intro mm
    induction mm with
    | nil => intro s; simp [resultSquares]
    | cons kv rest ih =>
      intro s
      rw [List.foldl_cons, foldl_insert_toFinset, ih]
      have h2 : resultSquares (kv :: rest) = kv.2.toFinset ∪ resultSquares rest := by
        show (kv :: rest).foldl (fun s kv => s ∪ kv.2.toFinset) ∅ = _
        rw [List.foldl_cons, resultSquares_hoist]
        simp
      rw [h2, Finset.union_assoc]
  exact key m (getAdjacentLocs kingLoc)

/-- Helper for C4: whenever the candidate loop returns `false`, the returned
exclusion set was recomputed from the returned result (the recomputation in
the `[]` branch is the only way the loop can return `false`), regardless of
the recursive call `rec`. -/
theorem tryCands_exclInv (rec : SearchSt → Option (Bool × SearchSt))
    (piece : Char) (kingLoc : Loc) :
    ∀ (cands : List Loc) (st st2 : SearchSt),
      tryCandsAux rec piece kingLoc cands st = some (false, st2) →
      st2.excl = calculateExclusion kingLoc st2.result := by
  intro cands
  induction cands with
  | nil =>
    intro st st2 h
    simp only [tryCandsAux, Option.some.injEq, Prod.mk.injEq, true_and] at h
    subst h
    rfl
  | cons loc rest ih =>
    intro st st2 h
    simp only [tryCandsAux] at h
    by_cases hmem : loc ∈ st.excl
    · rw [if_pos hmem] at h
      exact ih st st2 h
    · rw [if_neg hmem] at h
      split at h
      · exact absurd h (by simp)
      · split at h
        · exact absurd h (by simp)
        · simp at h
        · split at h
          · exact absurd h (by simp)
          · split at h
            · exact absurd h (by simp)
            · exact ih _ st2 h

/-- C4 amended: the claimed invariant holds at the points where the source
actually recomputes the exclusion set: if the exclusion invariant holds at
entry and `placePieceGreedy` returns `false`, the returned exclusion set
equals king adjacency ∪ result squares.  (It does NOT hold after a failed
candidate is undone — the candidate's square stays in the exclusion set
until the whole loop at that level finishes — nor on success, see the
counterexample.) -/
theorem C4_exclusion_on_false (fuel : Nat) (pieces : List Char)
    (pieceIndex : Nat) (moves : StMap) (st : SearchSt) (kingLoc : Loc)
    (st2 : SearchSt)
    (hstart : st.excl = getAdjacentLocs kingLoc ∪ resultSquares st.result)
    (h : ppg fuel pieces pieceIndex moves st kingLoc = some (false, st2)) :
    st2.excl = getAdjacentLocs kingLoc ∪ resultSquares st2.result := by
  cases fuel with
  | zero => exact absurd h (by simp [ppg])
  | succ f =>
    simp only [ppg] at h
    split at h
    · exact absurd h (by simp)
    · simp at h
    · split at h
      · simp only [Option.some.injEq, Prod.mk.injEq, true_and] at h
        subst h
        exact hstart
      · rw [← calculateExclusion_eq]
        exact tryCands_exclInv _ _ kingLoc _ st st2 h

/-- The search run used by the C4 and C10 witnesses: one queen whose only
candidate (5,5) fails, so `placePieceGreedy` (fuel 2 = length + 1) returns
`false`. -/
def ppgFalseOut : SearchSt :=
  match ppg 2 ['Q'] 0 [('Q', [⟨5, 5⟩])] c4Start ⟨0, 0⟩ with
  | some p => p.2
  | none => c4Start

/-- C4 witness: the amended statement on the concrete failing run, via
`C4_exclusion_on_false`. -/
theorem C4_witness :
    ppgFalseOut.excl = getAdjacentLocs ⟨0, 0⟩ ∪ resultSquares ppgFalseOut.result :=
  C4_exclusion_on_false 2 ['Q'] 0 [('Q', [⟨5, 5⟩])] c4Start ⟨0, 0⟩
    ppgFalseOut (by decide) (by rfl)

/-- Helper for C10: if the recursive call restores the per-kind square
vectors whenever it returns `false`, so does the candidate loop. -/
theorem tryCands_restore (rec : SearchSt → Option (Bool × SearchSt))
    (piece : Char) (kingLoc : Loc)
    (hrec : ∀ st st2, rec st = some (false, st2) →
      ∀ c, mapGet st2.result c = mapGet st.result c) :
    ∀ (cands : List Loc) (st st2 : SearchSt),
      tryCandsAux rec piece kingLoc cands st = some (false, st2) →
      ∀ c, mapGet st2.result c = mapGet st.result c := by
  intro cands
  induction cands with
  | nil =>
    intro st st2 h c
    simp only [tryCandsAux, Option.some.injEq, Prod.mk.injEq, true_and] at h
    subst h
    rfl
  | cons loc rest ih =>
    intro st st2 h c
    simp only [tryCandsAux] at h
    by_cases hmem : loc ∈ st.excl
    · rw [if_pos hmem] at h
      exact ih st st2 h c
    · rw [if_neg hmem] at h
      split at h
      · exact absurd h (by simp)
      · rename_i b2 hb2
        split at h
        · exact absurd h (by simp)
        · simp at h
        · rename_i st3 hrec3
          split at h
          · exact absurd h (by simp)
          · rename_i b3 hb3
            split at h
            · exact absurd h (by simp)
            · rename_i v hv
              have hst3 : ∀ d, mapGet st3.result d =
                  mapGet (mapSet st.result piece (mapGet st.result piece ++ [loc])) d :=
                hrec _ st3 hrec3
              have hvval : v = mapGet st.result piece := by
                have h1 : mapGet st3.result piece = mapGet st.result piece ++ [loc] := by
                  rw [hst3 piece, mapGet_mapSet_self]
                rw [h1, vecPopLast_append] at hv
                exact (Option.some.injEq _ _ ▸ hv).symm
              have hnext := ih _ st2 h c
              rw [hnext]
              by_cases hc : c = piece
              · subst hc
                rw [mapGet_mapSet_self, hvval]
              · rw [mapGet_mapSet_ne _ _ _ _ hc, hst3 c,
                  mapGet_mapSet_ne _ _ _ _ hc]

/-- C10 amended: whenever `placePieceGreedy` returns `false`, every kind's
square vector in the result map equals its value at call entry — every
tentative occupation has been undone square-wise.  (The result MAP need not
be equal to its entry value: a key auto-inserted by `result[piece]` stays
behind with an empty vector, see the counterexample.) -/
theorem C10_result_restored :
    ∀ (fuel : Nat) (pieces : List Char) (pieceIndex : Nat) (moves : StMap)
      (st : SearchSt) (kingLoc : Loc) (st2 : SearchSt),
      ppg fuel pieces pieceIndex moves st kingLoc = some (false, st2) →
      ∀ c, mapGet st2.result c = mapGet st.result c := by
  intro fuel
  induction fuel with
  | zero => intro pieces pieceIndex moves st kingLoc st2 h; exact absurd h (by simp [ppg])
  | succ f ih =>
    intro pieces pieceIndex moves st kingLoc st2 h c
    simp only [ppg] at h
    split at h
    · exact absurd h (by simp)
    · simp at h
    · split at h
      · simp only [Option.some.injEq, Prod.mk.injEq, true_and] at h
        subst h
        rfl
      · exact tryCands_restore _ _ kingLoc
          (fun st3 st4 h34 => ih pieces (pieceIndex + 1) moves st3 kingLoc st4 h34)
          _ st st2 h c

/-- C10 witness: the concrete failing run restores the queen's square
vector, via `C10_result_restored`. -/
theorem C10_witness : mapGet ppgFalseOut.result 'Q' = mapGet c4Start.result 'Q' :=
  C10_result_restored 2 ['Q'] 0 [('Q', [⟨5, 5⟩])] c4Start ⟨0, 0⟩
    ppgFalseOut (by rfl) 'Q'

/-- Decomposition of a sorted char list around a value `c`: the elements
below `c`, then the contiguous block of all copies of `c`, then the elements
above `c`. -/
theorem sorted_decomp (c : Char) :
    ∀ (l : List Char), l.Sorted (· ≤ ·) →
      ∃ A B, l = A ++ List.replicate (l.count c) c ++ B ∧
        (∀ x ∈ A, x < c) ∧ (∀ x ∈ B, c < x) := by
  intro l
  induction l with
  | nil => exact fun _ => ⟨[], [], by simp, by simp, by simp⟩
  | cons x t ih =>
    intro hs
    obtain ⟨A, B, hdec, hA, hB⟩ := ih hs.of_cons
    rcases lt_trichotomy x c with hx | hx | hx
    · refine ⟨x :: A, B, ?_, ?_, hB⟩
      · have hcount : (x :: t).count c = t.count c := by
          rw [List.count_cons]
          simp [ne_of_lt hx]
        rw [hcount, List.cons_append, List.cons_append, ← hdec]
      · intro y hy
        rcases List.mem_cons.mp hy with rfl | hy2
        · exact hx
        · exact hA y hy2
    · subst hx
      have hA0 : A = [] := by
        cases A with
        | nil => rfl
        | cons a A2 =>
          exfalso
          have hat : a ∈ t := by rw [hdec]; simp
          exact absurd (List.rel_of_sorted_cons hs a hat) (not_le.mpr (hA a (List.mem_cons_self a A2)))
      subst hA0
      refine ⟨[], B, ?_, by simp, hB⟩
      have hcount : (x :: t).count x = t.count x + 1 := by
        rw [List.count_cons]; simp
      rw [hcount]
      simp only [List.nil_append] at hdec ⊢
      rw [List.replicate_succ, List.cons_append, ← hdec]
    · refine ⟨[], x :: t, ?_, by simp, ?_⟩
      · have hc0 : (x :: t).count c = 0 := by
          apply List.count_eq_zero_of_not_mem
          intro hmem
          rcases List.mem_cons.mp hmem with rfl | hmem2
          · exact lt_irrefl c hx
          · exact absurd (List.rel_of_sorted_cons hs c hmem2) (not_le.mpr hx)
        rw [hc0]
        simp
      · intro y hy
        rcases List.mem_cons.mp hy with rfl | hy2
        · exact hx
        · exact lt_of_lt_of_le hx (List.rel_of_sorted_cons hs y hy2)

theorem findIdx?_shift (p : Char → Bool) :
    ∀ (A t : List Char) (i : Nat), (∀ x ∈ A, p x = false) →
      List.findIdx? p (A ++ t) i = List.findIdx? p t (i + A.length) := by
  intro A
  induction A with
  | nil => intro t i _; simp
  | cons a A2 ih =>
    intro t i hA
    rw [List.cons_append, List.findIdx?_cons,
      if_neg (by rw [hA a (List.mem_cons_self a A2)]; simp),
      ih t (i + 1) fun x hx => hA x (List.mem_cons_of_mem a hx)]
    congr 1
    simp
    omega

/-- `indexOf` on a sorted list decomposed around `c` finds the start of the
`c` block. -/
theorem findIdx?_block (c : Char) (A B : List Char) (m : Nat)
    (hA : ∀ x ∈ A, x < c) (hm : 1 ≤ m) :
    (A ++ List.replicate m c ++ B).findIdx? (fun x => x == c) = some A.length := by
  have hpA : ∀ x ∈ A, (x == c) = false := by
    intro x hx
    simp [ne_of_lt (hA x hx)]
  rw [List.append_assoc, findIdx?_shift _ A _ 0 hpA]
  cases m with
  | zero => omega
  | succ k =>
    rw [List.replicate_succ, List.cons_append, List.findIdx?_cons, if_pos (by simp)]
    simp

/-- Removing `n` times at the fixed index `i` drops the `n` elements at
positions `i, …, i + n - 1`. -/
theorem removeNAt_fixed :
    ∀ (n : Nat) (l : List Char) (i : Nat), i + n ≤ l.length →
      removeNAt l (some i) n = some (l.take i ++ l.drop (i + n)) := by
  intro n
  induction n with
  | zero =>
    intro l i _
    simp [removeNAt, List.take_append_drop]
  | succ m ih =>
    intro l i hlen
    have hi : i < l.length := by omega
    have hlen2 : i + m ≤ (l.eraseIdx i).length := by
      rw [List.length_eraseIdx, if_pos hi]
      omega
    simp only [removeNAt, if_pos hi]
    rw [ih (l.eraseIdx i) i hlen2]
    congr 1
    rw [List.eraseIdx_eq_take_drop_succ]
    have hlt : (List.take i l).length = i := by
      rw [List.length_take]
      exact Nat.min_eq_left hi.le
    have htake : (List.take i l ++ List.drop (i + 1) l).take i = List.take i l :=
      List.take_left' hlt
    have hdrop : (List.take i l ++ List.drop (i + 1) l).drop (i + m) =
        List.drop (i + (m + 1)) l := by
      have h1 : i + m = (List.take i l).length + m := by rw [hlt]
      rw [h1, List.drop_append, List.drop_drop]
      congr 1
      omega
    rw [htake, hdrop]

/-- The inner loop of `removeUsedPieces` on a sorted list: removing
`n ≤ m` copies at `indexOf c` deletes exactly `n` copies of `c`. -/
theorem removeNAt_block (c : Char) (A B : List Char) (m n : Nat)
    (hA : ∀ x ∈ A, x < c) (hnm : n ≤ m) :
    removeNAt (A ++ List.replicate m c ++ B)
        ((A ++ List.replicate m c ++ B).findIdx? fun x => x == c) n =
      some (A ++ List.replicate (m - n) c ++ B) := by
  cases n with
  | zero => simp [removeNAt]
  | succ k =>
    have hm1 : 1 ≤ m := by omega
    rw [findIdx?_block c A B m hA hm1]
    have hlen : A.length + (k + 1) ≤ (A ++ List.replicate m c ++ B).length := by
      simp [List.length_append, List.length_replicate]
      omega
    rw [removeNAt_fixed (k + 1) _ A.length hlen]
    congr 1
    have hsplit : List.replicate m c =
        List.replicate (k + 1) c ++ List.replicate (m - (k + 1)) c := by
      rw [← List.replicate_add]
      congr 1
      omega
    have htake : (A ++ List.replicate m c ++ B).take A.length = A := by
      rw [List.append_assoc]
      exact List.take_left' rfl
    have hdrop : (A ++ List.replicate m c ++ B).drop (A.length + (k + 1)) =
        List.replicate (m - (k + 1)) c ++ B := by
      rw [List.append_assoc, hsplit, List.append_assoc, ← List.append_assoc A]
      have hl2 : (A ++ List.replicate (k + 1) c).length = A.length + (k + 1) := by
        simp [List.length_append, List.length_replicate]
      rw [← hl2, List.drop_left]
    rw [htake, hdrop, List.append_assoc]

/-- Weight of one result entry for kind `d` (number of squares if the entry
has key `d`, else 0). -/
def entryWeight (d : Char) (kv : Char × List Loc) : Nat :=
  if kv.1 = d then kv.2.length else 0

theorem removeUsed_fold :
    ∀ (entries : StMap) (ps : List Char),
      ps.Sorted (· ≤ ·) →
      (entries.map Prod.fst).Nodup →
      (∀ kv ∈ entries, kv.2.length ≤ ps.count kv.1) →
      ∃ out,
        entries.foldlM
            (fun ps2 kv =>
              removeNAt ps2 (ps2.findIdx? fun c => c == kv.1) kv.2.length) ps =
          some out ∧
        out.Sorted (· ≤ ·) ∧
        ∀ d, out.count d = ps.count d - (entries.map (entryWeight d)).sum := by
  intro entries
  induction entries with
  | nil =>
    intro ps hs _ _
    exact ⟨ps, rfl, hs, by simp⟩
  | cons kv rest ih =>
    intro ps hs hnd hle
    obtain ⟨k, v⟩ := kv
    obtain ⟨A, B, hdec, hA, hB⟩ := sorted_decomp k ps hs
    have hcnt : v.length ≤ ps.count k := hle (k, v) (List.mem_cons_self _ _)
    have hstep : removeNAt ps (ps.findIdx? fun c => c == k) v.length =
        some (A ++ List.replicate (ps.count k - v.length) k ++ B) := by
      conv_lhs => rw [hdec]
      exact removeNAt_block k A B (ps.count k) v.length hA hcnt
    have hsub : (A ++ List.replicate (ps.count k - v.length) k ++ B).Sublist ps := by
      conv_rhs => rw [hdec]
      exact List.Sublist.append
        (List.Sublist.append (List.Sublist.refl A)
          ((List.replicate_sublist_replicate k).mpr
            (Nat.sub_le (ps.count k) v.length)))
        (List.Sublist.refl B)
    have hs2 : (A ++ List.replicate (ps.count k - v.length) k ++ B).Sorted (· ≤ ·) :=
      List.Pairwise.sublist hsub hs
    have hkA : List.count k A = 0 :=
      List.count_eq_zero_of_not_mem fun hmem => lt_irrefl k (hA k hmem)
    have hkB : List.count k B = 0 :=
      List.count_eq_zero_of_not_mem fun hmem => lt_irrefl k (hB k hmem)
    have hcounts : ∀ d,
        (A ++ List.replicate (ps.count k - v.length) k ++ B).count d =
          ps.count d - entryWeight d (k, v) := by
      intro d
      by_cases hdk : k = d
      · subst hdk
        rw [List.count_append, List.count_append, List.count_replicate]
        conv_rhs => rw [hdec]
        rw [List.count_append, List.count_append, List.count_replicate]
        simp [entryWeight, hkA, hkB]
      · have hw : entryWeight d (k, v) = 0 := by simp [entryWeight, hdk]
        rw [hw]
        conv_rhs => rw [hdec]
        rw [List.count_append, List.count_append, List.count_replicate,
          List.count_append, List.count_append, List.count_replicate]
        simp [show (k == d) = false by simp [hdk]]
    have hnodup := List.nodup_cons.mp hnd
    have hle2 : ∀ kv2 ∈ rest, kv2.2.length ≤
        (A ++ List.replicate (ps.count k - v.length) k ++ B).count kv2.1 := by
      intro kv2 hkv2
      have hne : kv2.1 ≠ k := by
        intro he
        have hmm : kv2.1 ∈ List.map Prod.fst rest := List.mem_map_of_mem Prod.fst hkv2
        rw [he] at hmm
        exact hnodup.1 hmm
      rw [hcounts kv2.1]
      have hne2 : k ≠ kv2.1 := fun he => hne he.symm
      have hw : entryWeight kv2.1 (k, v) = 0 := by
        simp [entryWeight, hne2]
      rw [hw, Nat.sub_zero]
      exact hle kv2 (List.mem_cons_of_mem _ hkv2)
    obtain ⟨out, hfold, hsOut, hcnt2⟩ := ih _ hs2 hnodup.2 hle2
    refine ⟨out, ?_, hsOut, ?_⟩
    · rw [List.foldlM_cons, hstep]
      exact hfold
    · intro d
      rw [hcnt2 d, hcounts d, List.map_cons, List.sum_cons, Nat.sub_sub]

theorem sum_entryWeight_eq_mapGet (d : Char) :
    ∀ (m : StMap), (m.map Prod.fst).Nodup →
      (m.map (entryWeight d)).sum = (mapGet m d).length := by
  intro m
  induction m with
  | nil => intro _; simp [mapGet]
  | cons kv rest ih =>
    intro hnd
    obtain ⟨k, v⟩ := kv
    rw [List.map_cons, List.sum_cons, mapGet_cons]
    by_cases hk : k = d
    · subst hk
      have h0 : (rest.map (entryWeight k)).sum = 0 := by
        apply List.sum_eq_zero
        intro x hx
        obtain ⟨kv2, hkv2, rfl⟩ := List.mem_map.mp hx
        have hne : kv2.1 ≠ k := by
          intro he
          have hmm : kv2.1 ∈ List.map Prod.fst rest := List.mem_map_of_mem Prod.fst hkv2
          rw [he] at hmm
          exact (List.nodup_cons.mp hnd).1 hmm
        simp [entryWeight, hne]
      simp [entryWeight, h0]
    · rw [ih (List.nodup_cons.mp hnd).2]
      simp [entryWeight, hk]

/-- C7 counterexample: on pieces `['Q','R']` with result `{'Q' ↦ 2 squares}`
(more queens recorded than present), `removeUsedPieces` returns `[]`: after
both queens run out it keeps removing at the same index and silently eats
the `'R'`, although the exact multiset difference still contains one `'R'`. -/
theorem C7_counterexample :
    removeUsedPieces ['Q', 'R'] [('Q', [⟨0, 0⟩, ⟨0, 1⟩])] = some [] ∧
    (['Q', 'R'] : List Char).count 'R' -
        (mapGet [('Q', [⟨0, 0⟩, ⟨0, 1⟩])] 'R').length = 1 := by
  decide

/-- C7 amended: PROVIDED every kind occurs in the result map no more often
than in the piece list (which holds for every result the search itself
produces), `removeUsedPieces` succeeds and the remaining list's multiset is
exactly the input multiset minus the result's multiset, kind by kind. -/
theorem C7_removeUsedPieces (pieces : List Char) (result : StMap)
    (hnd : (result.map Prod.fst).Nodup)
    (hle : ∀ kv ∈ result, kv.2.length ≤ pieces.count kv.1) :
    ∃ out, removeUsedPieces pieces result = some out ∧
      ∀ d, out.count d = pieces.count d - (mapGet result d).length := by
  have hperm := List.perm_insertionSort (· ≤ ·) pieces
  have hs := List.sorted_insertionSort (· ≤ ·) pieces
  have hle2 : ∀ kv ∈ result, kv.2.length ≤ (pieces.insertionSort (· ≤ ·)).count kv.1 := by
    intro kv h
    rw [hperm.count_eq]
    exact hle kv h
  obtain ⟨out, hfold, _, hcnt⟩ := removeUsed_fold result _ hs hnd hle2
  refine ⟨out, hfold, fun d => ?_⟩
  rw [hcnt d, hperm.count_eq, sum_entryWeight_eq_mapGet d result hnd]

/-- C7 witness: the repo's own `removeUsedPieces` test (pieces
`['R','R','Q','H','Q','K']`, result `{'K' ↦ 1, 'Q' ↦ 2}`), via
`C7_removeUsedPieces`. -/
theorem C7_witness :
    ∃ out, removeUsedPieces ['R', 'R', 'Q', 'H', 'Q', 'K']
        [('K', [⟨1, 3⟩]), ('Q', [⟨3, 0⟩, ⟨2, 3⟩])] = some out ∧
      ∀ d, out.count d =
        (['R', 'R', 'Q', 'H', 'Q', 'K'] : List Char).count d -
          (mapGet [('K', [⟨1, 3⟩]), ('Q', [⟨3, 0⟩, ⟨2, 3⟩])] d).length :=
  C7_removeUsedPieces ['R', 'R', 'Q', 'H', 'Q', 'K']
    [('K', [⟨1, 3⟩]), ('Q', [⟨3, 0⟩, ⟨2, 3⟩])] (by decide) (by decide)

/-- Board of the C5 counterexample: defending king at (0,0) and queens at
(2,2), (0,4) and (4,0), which together reduce the king adjacency to exactly
the king square. -/
def c5Board : Board := fun l =>
  if l = ⟨0, 0⟩ then 'K'
  else if l = ⟨2, 2⟩ then 'Q'
  else if l = ⟨0, 4⟩ then 'Q'
  else if l = ⟨4, 0⟩ then 'Q'
  else 'E'

/-- Result map of the C5 counterexample. -/
def c5Result : StMap := [('Q', [⟨2, 2⟩, ⟨0, 4⟩, ⟨4, 0⟩])]

/-- C5 counterexample: the position is a stalemate before leftover
placement, but placing the leftover piece list `['K']` puts the white king
on (0,3) — it attacks no king-adjacent square, yet it BLOCKS the ray of the
queen on (0,4) that attacked (0,1), and `isStalemate` becomes false on the
updated result and board. -/
theorem C5_counterexample :
    isStalemate c5Board ⟨0, 0⟩ c5Result = some true ∧
    (do
      let (b2, r2) ← placeUselessPieces c5Board ['K']
        (calculateExclusion ⟨0, 0⟩ c5Result) ⟨0, 0⟩ c5Result
      isStalemate b2 ⟨0, 0⟩ r2) = some false := by
  decide

/-- Board `b2` is at least as occupied as board `b` (every square empty on
`b2` is empty on `b`). -/
def EmptyLe (b b2 : Board) : Prop := ∀ l, b2 l = 'E' → b l = 'E'

theorem EmptyLe_refl (b : Board) : EmptyLe b b := fun _ h => h

theorem EmptyLe_trans {a b c : Board} (h1 : EmptyLe a b) (h2 : EmptyLe b c) :
    EmptyLe a c := fun l h => h1 l (h2 l h)

theorem EmptyLe_boardSet (b : Board) (loc : Loc) (c : Char) (b2 : Board)
    (hc : c ≠ 'E') (h : boardSet b loc c = some b2) : EmptyLe b b2 := by
  unfold boardSet at h
  split at h
  · injection h with h2
    subst h2
    intro l hl
    have hl2 : (if l = loc then c else b l) = 'E' := hl
    by_cases he : l = loc
    · rw [if_pos he] at hl2
      exact absurd hl2 hc
    · rw [if_neg he] at hl2
      exact hl2
  · exact absurd h (by simp)

/-- Rays only get shorter as the board fills up. -/
theorem ray_mono (b b2 : Board) (h : EmptyLe b b2) (dr dc : Int) :
    ∀ (fuel : Nat) (loc x : Loc),
      x ∈ ray b2 dr dc loc fuel → x ∈ ray b dr dc loc fuel := by
  intro fuel
  induction fuel with
  | zero => intro loc x hx; simp [ray] at hx
  | succ f ih =>
    intro loc x hx
    simp only [ray] at hx ⊢
    by_cases hc2 : (inBoundsB ⟨loc.row + dr, loc.col + dc⟩ &&
        (b2 ⟨loc.row + dr, loc.col + dc⟩ == 'E')) = true
    · rw [if_pos hc2] at hx
      obtain ⟨hib, hb2⟩ := Bool.and_eq_true_iff.mp hc2
      have hbE : b ⟨loc.row + dr, loc.col + dc⟩ = 'E' :=
        h _ (beq_iff_eq.mp hb2)
      have hc1 : (inBoundsB ⟨loc.row + dr, loc.col + dc⟩ &&
          (b ⟨loc.row + dr, loc.col + dc⟩ == 'E')) = true := by
        rw [hib, hbE]
        simp
      rw [if_pos hc1]
      rcases List.mem_cons.mp hx with rfl | hx2
      · exact List.mem_cons_self _ _
      · exact List.mem_cons_of_mem _ (ih _ x hx2)
    · rw [if_neg hc2] at hx
      exact absurd hx (List.not_mem_nil x)

theorem rowAttacking_mono (b b2 : Board) (h : EmptyLe b b2) (loc : Loc) :
    rowAttackingLocs b2 loc ⊆ rowAttackingLocs b loc := by
  intro x hx
  simp only [rowAttackingLocs, Finset.mem_union, List.mem_toFinset] at hx ⊢
  rcases hx with ((hx | hx) | hx) | hx
  · exact Or.inl (Or.inl (Or.inl (ray_mono b b2 h _ _ 8 loc x hx)))
  · exact Or.inl (Or.inl (Or.inr (ray_mono b b2 h _ _ 8 loc x hx)))
  · exact Or.inl (Or.inr (ray_mono b b2 h _ _ 8 loc x hx))
  · exact Or.inr (ray_mono b b2 h _ _ 8 loc x hx)

theorem diagonalAttacking_mono (b b2 : Board) (h : EmptyLe b b2) (loc : Loc) :
    diagonalAttackingLocs b2 loc ⊆ diagonalAttackingLocs b loc := by
  intro x hx
  simp only [diagonalAttackingLocs, Finset.mem_union, List.mem_toFinset] at hx ⊢
  rcases hx with ((hx | hx) | hx) | hx
  · exact Or.inl (Or.inl (Or.inl (ray_mono b b2 h _ _ 8 loc x hx)))
  · exact Or.inl (Or.inl (Or.inr (ray_mono b b2 h _ _ 8 loc x hx)))
  · exact Or.inl (Or.inr (ray_mono b b2 h _ _ 8 loc x hx))
  · exact Or.inr (ray_mono b b2 h _ _ 8 loc x hx)

/-- A piece's attack set only shrinks as the board fills up (knight attacks
are occupancy-independent, all other kinds only attack empty squares and
slide until blocked). -/
theorem attD_mono (b b2 : Board) (h : EmptyLe b b2) (c : Char) (loc : Loc) :
    attD b2 c loc ⊆ attD b c loc := by
  by_cases h1 : c = 'K'
  · subst h1
    have e1 : attD b 'K' loc =
        ((offsets.flatMap fun i => offsets.map fun j =>
            Loc.mk (loc.row + i) (loc.col + j)).filter fun l =>
              inBoundsB l && (b l == 'E') && l != loc).toFinset := rfl
    have e2 : attD b2 'K' loc =
        ((offsets.flatMap fun i => offsets.map fun j =>
            Loc.mk (loc.row + i) (loc.col + j)).filter fun l =>
              inBoundsB l && (b2 l == 'E') && l != loc).toFinset := rfl
    rw [e1, e2]
    intro x hx
    simp only [List.mem_toFinset, List.mem_filter] at hx ⊢
    obtain ⟨hmem, hcond⟩ := hx
    obtain ⟨hc1, hne⟩ := Bool.and_eq_true_iff.mp hcond
    obtain ⟨hib, hb2⟩ := Bool.and_eq_true_iff.mp hc1
    refine ⟨hmem, ?_⟩
    rw [hib, h x (beq_iff_eq.mp hb2), hne]
    simp
  · by_cases h2 : c = 'Q'
    · subst h2
      have e1 : attD b 'Q' loc =
          rowAttackingLocs b loc ∪ diagonalAttackingLocs b loc := rfl
      have e2 : attD b2 'Q' loc =
          rowAttackingLocs b2 loc ∪ diagonalAttackingLocs b2 loc := rfl
      rw [e1, e2]
      exact Finset.union_subset_union (rowAttacking_mono b b2 h loc)
        (diagonalAttacking_mono b b2 h loc)
    · by_cases h3 : c = 'R'
      · subst h3
        have e1 : attD b 'R' loc = rowAttackingLocs b loc := rfl
        have e2 : attD b2 'R' loc = rowAttackingLocs b2 loc := rfl
        rw [e1, e2]
        exact rowAttacking_mono b b2 h loc
      · by_cases h4 : c = 'H'
        · subst h4
          have e1 : attD b 'H' loc = attD b2 'H' loc := rfl
          rw [e1]
        · by_cases h5 : c = 'B'
          · subst h5
            have e1 : attD b 'B' loc = diagonalAttackingLocs b loc := rfl
            have e2 : attD b2 'B' loc = diagonalAttackingLocs b2 loc := rfl
            rw [e1, e2]
            exact diagonalAttacking_mono b b2 h loc
          · simp [attD, pieceAttackingLocs, h1, h2, h3, h4, h5]

theorem validKind_ne_E (c : Char) (h : validKind c) : c ≠ 'E' := by
  unfold validKind at h
  fin_cases h <;> decide

/-- Success of `notAttackingKing` yields: the kind is valid, and (when the
answer is `true`) the piece's attack set is disjoint from the king
adjacency. -/
theorem notAttackingKing_elim (b : Board) (piece : Char) (loc kingLoc : Loc)
    (h : notAttackingKing b piece loc kingLoc = some true) :
    validKind piece ∧ Disjoint (getAdjacentLocs kingLoc) (attD b piece loc) := by
  unfold notAttackingKing at h
  cases hA : pieceAttackingLocs b piece loc with
  | none => rw [hA] at h; exact absurd h (by simp)
  | some att =>
    rw [hA] at h
    simp only [Option.map_some', Option.some.injEq, decide_eq_true_eq] at h
    refine ⟨pAL_valid_of_some b piece loc att hA, ?_⟩
    have hatt : attD b piece loc = att := by rw [attD, hA]; rfl
    rw [hatt]
    exact Finset.sdiff_eq_self_iff_disjoint.mp h.symm

theorem pulScan_safe (kingLoc : Loc) (exclusion : Finset Loc) :
    ∀ (squares : List Loc) (piece : Char) (pieces : List Char) (b : Board)
      (result : StMap) (bF : Board) (resultF : StMap),
      pulScan piece kingLoc exclusion b pieces result squares = some (bF, resultF) →
      EmptyLe b bF ∧
      ∀ c, ∃ added, mapGet resultF c = mapGet result c ++ added ∧
        ∀ loc ∈ added, loc ∉ exclusion ∧
          Disjoint (getAdjacentLocs kingLoc) (attD bF c loc) := by
  intro squares
  induction squares with
  | nil =>
    intro piece pieces b result bF resultF h
    simp only [pulScan, Option.some.injEq, Prod.mk.injEq] at h
    obtain ⟨hb, hr⟩ := h
    subst hb
    subst hr
    exact ⟨EmptyLe_refl b, fun c => ⟨[], by simp, by simp⟩⟩
  | cons loc rest ih =>
    intro piece pieces b result bF resultF h
    simp only [pulScan] at h
    split at h
    · exact absurd h (by simp)
    · rename_i na hna
      split at h
      · rename_i hcond
        obtain ⟨hnaT, hexB⟩ := Bool.and_eq_true_iff.mp hcond
        subst hnaT
        have hnex : loc ∉ exclusion := by
          intro hmem
          rw [decide_eq_true hmem] at hexB
          exact absurd hexB (by simp)
        obtain ⟨hvalid, hdisj⟩ := notAttackingKing_elim b piece loc kingLoc hna
        split at h
        · exact absurd h (by simp)
        · rename_i b2 hb2
          have hEmp12 : EmptyLe b b2 :=
            EmptyLe_boardSet b loc piece b2 (validKind_ne_E piece hvalid) hb2
          split at h
          · -- no pieces left: place and return
            simp only [Option.some.injEq, Prod.mk.injEq] at h
            obtain ⟨hbF, hrF⟩ := h
            subst hbF
            subst hrF
            refine ⟨hEmp12, fun c => ?_⟩
            by_cases hc : c = piece
            · subst hc
              refine ⟨[loc], by rw [mapGet_mapSet_self], ?_⟩
              intro l hl
              have hll : l = loc := List.mem_singleton.mp hl
              subst hll
              exact ⟨hnex, hdisj.mono_right (attD_mono b b2 hEmp12 c l)⟩
            · exact ⟨[], by rw [mapGet_mapSet_ne _ _ _ _ hc, List.append_nil],
                by simp⟩
          · -- hand the next piece on and keep scanning
            rename_i p ps
            obtain ⟨hEmp2F, hAdd⟩ := ih p ps b2 _ bF resultF h
            refine ⟨EmptyLe_trans hEmp12 hEmp2F, fun c => ?_⟩
            obtain ⟨added2, heq2, hprop2⟩ := hAdd c
            by_cases hc : c = piece
            · subst hc
              rw [mapGet_mapSet_self] at heq2
              refine ⟨loc :: added2, by rw [heq2, List.append_assoc]; rfl, ?_⟩
              intro l hl
              rcases List.mem_cons.mp hl with hll | hl2
              · subst hll
                exact ⟨hnex, hdisj.mono_right
                  (attD_mono b bF (EmptyLe_trans hEmp12 hEmp2F) c l)⟩
              · exact hprop2 l hl2
            · rw [mapGet_mapSet_ne _ _ _ _ hc] at heq2
              exact ⟨added2, heq2, hprop2⟩
      · exact ih piece pieces b result bF resultF h

/-- C5 amended: every square `placeUselessPieces` assigns is outside the
exclusion set and its piece attacks no king-adjacent square, re-checked on
the FINAL board (attack sets only shrink as later pieces are placed).  The
counterexample shows this is weaker than preserving `isStalemate`: a placed
piece can block the ray of an already-placed attacker. -/
theorem C5_leftover_safe (b : Board) (pieces : List Char)
    (exclusion : Finset Loc) (kingLoc : Loc) (result : StMap) (bF : Board)
    (resultF : StMap)
    (h : placeUselessPieces b pieces exclusion kingLoc result = some (bF, resultF)) :
    ∀ c, ∃ added, mapGet resultF c = mapGet result c ++ added ∧
      ∀ loc ∈ added, loc ∉ exclusion ∧
        Disjoint (getAdjacentLocs kingLoc) (attD bF c loc) := by
  cases pieces with
  | nil =>
    simp only [placeUselessPieces, Option.some.injEq, Prod.mk.injEq] at h
    obtain ⟨hb, hr⟩ := h
    subst hb
    subst hr
    exact fun c => ⟨[], by simp, by simp⟩
  | cons p ps =>
    exact (pulScan_safe kingLoc exclusion allSquares p ps b result bF resultF h).2

/-- Final board of the C5 witness run. -/
def c5OutB : Board :=
  match placeUselessPieces c5Board ['K'] (calculateExclusion ⟨0, 0⟩ c5Result)
      ⟨0, 0⟩ c5Result with
  | some p => p.1
  | none => c5Board

/-- Final result map of the C5 witness run. -/
def c5OutR : StMap :=
  match placeUselessPieces c5Board ['K'] (calculateExclusion ⟨0, 0⟩ c5Result)
      ⟨0, 0⟩ c5Result with
  | some p => p.2
  | none => c5Result

/-- C5 witness: the amended statement on the concrete counterexample run,
for the placed kind `'K'`, via `C5_leftover_safe`. -/
theorem C5_witness :
    ∃ added, mapGet c5OutR 'K' = mapGet c5Result 'K' ++ added ∧
      ∀ loc ∈ added, loc ∉ calculateExclusion ⟨0, 0⟩ c5Result ∧
        Disjoint (getAdjacentLocs ⟨0, 0⟩) (attD c5OutB 'K' loc) :=
  C5_leftover_safe c5Board ['K'] (calculateExclusion ⟨0, 0⟩ c5Result) ⟨0, 0⟩
    c5Result c5OutB c5OutR (by rfl) 'K'

/-- Characterisation of ray membership: `s` is on the ray from `loc` in
direction `(dr, dc)` iff it is the `k`-th step for some `k ≥ 1` within the
fuel, and every step up to and including the `k`-th is in bounds and
empty. -/
theorem mem_ray_iff (b : Board) (dr dc : Int) :
    ∀ (fuel : Nat) (loc s : Loc), s ∈ ray b dr dc loc fuel ↔
      ∃ k : Nat, 1 ≤ k ∧ k ≤ fuel ∧
        s = ⟨loc.row + k * dr, loc.col + k * dc⟩ ∧
        ∀ j : Nat, 1 ≤ j → j ≤ k →
          inBoundsB ⟨loc.row + j * dr, loc.col + j * dc⟩ = true ∧
          b ⟨loc.row + j * dr, loc.col + j * dc⟩ = 'E' := by
  intro fuel
  induction fuel with
  | zero =>
    intro loc s
    simp only [ray, List.not_mem_nil, false_iff]
    rintro ⟨k, hk1, hk0, _⟩
    omega
  | succ f ih =>
    intro loc s
    simp only [ray]
    have e1 : (⟨loc.row + ((1 : Nat) : Int) * dr, loc.col + ((1 : Nat) : Int) * dc⟩ : Loc) =
        ⟨loc.row + dr, loc.col + dc⟩ := by
      simp only [Loc.mk.injEq]
      constructor <;> (push_cast; ring)
    by_cases hc : (inBoundsB ⟨loc.row + dr, loc.col + dc⟩ &&
        (b ⟨loc.row + dr, loc.col + dc⟩ == 'E')) = true
    · rw [if_pos hc]
      obtain ⟨hib, hbe⟩ := Bool.and_eq_true_iff.mp hc
      have hbe2 : b ⟨loc.row + dr, loc.col + dc⟩ = 'E' := beq_iff_eq.mp hbe
      rw [List.mem_cons, ih ⟨loc.row + dr, loc.col + dc⟩ s]
      constructor
      · rintro (rfl | ⟨k, hk1, hkf, hs, hj⟩)
        · refine ⟨1, le_refl 1, by omega, by rw [e1], ?_⟩
          intro j hj1 hj2
          have hj' : j = 1 := by omega
          subst hj'
          rw [e1]
          exact ⟨hib, hbe2⟩
        · refine ⟨k + 1, by omega, by omega, ?_, ?_⟩
          · rw [hs]
            simp only [Loc.mk.injEq]
            constructor <;> (push_cast; ring)
          · intro j hj1 hjk1
            by_cases hj' : j = 1
            · subst hj'
              rw [e1]
              exact ⟨hib, hbe2⟩
            · have hjm : 1 ≤ j - 1 := by omega
              have hjm2 : j - 1 ≤ k := by omega
              have key : (⟨loc.row + (j : Int) * dr, loc.col + (j : Int) * dc⟩ : Loc) =
                  ⟨loc.row + dr + ((j - 1 : Nat) : Int) * dr,
                    loc.col + dc + ((j - 1 : Nat) : Int) * dc⟩ := by
                simp only [Loc.mk.injEq]
                constructor <;> (rw [Nat.cast_sub hj1]; push_cast; ring)
              rw [key]
              exact hj (j - 1) hjm hjm2
      · rintro ⟨k, hk1, hkf1, hs, hj⟩
        by_cases hk' : k = 1
        · subst hk'
          left
          rw [hs, e1]
        · right
          refine ⟨k - 1, by omega, by omega, ?_, ?_⟩
          · rw [hs]
            simp only [Loc.mk.injEq]
            constructor <;> (rw [Nat.cast_sub hk1]; push_cast; ring)
          · intro j hj1 hjk
            have hstep := hj (j + 1) (by omega) (by omega)
            have key : (⟨loc.row + dr + (j : Int) * dr, loc.col + dc + (j : Int) * dc⟩ : Loc) =
                ⟨loc.row + ((j + 1 : Nat) : Int) * dr, loc.col + ((j + 1 : Nat) : Int) * dc⟩ := by
              simp only [Loc.mk.injEq]
              constructor <;> (push_cast; ring)
            rw [key]
            exact hstep
    · rw [if_neg hc]
      simp only [List.not_mem_nil, false_iff]
      rintro ⟨k, hk1, hkf, hs, hj⟩
      have h1 := hj 1 (le_refl 1) hk1
      rw [e1] at h1
      apply hc
      rw [Bool.and_eq_true_iff]
      exact ⟨h1.1, beq_iff_eq.mpr h1.2⟩

theorem inBoundsB_iff (l : Loc) :
    inBoundsB l = true ↔ 0 ≤ l.row ∧ l.row < 8 ∧ 0 ≤ l.col ∧ l.col < 8 := by
  simp [inBoundsB, Bool.and_eq_true, decide_eq_true_eq, and_assoc]

theorem inBoundsB_mk (r c : Int) :
    inBoundsB ⟨r, c⟩ = true ↔ 0 ≤ r ∧ r < 8 ∧ 0 ≤ c ∧ c < 8 := by
  simp [inBoundsB, Bool.and_eq_true, decide_eq_true_eq, and_assoc]

/-- The two horizontal rays reach exactly the empty squares of the same row
that are separated from `loc` only by empty squares. -/
theorem horiz_mem (b : Board) (lr lc : Int) (h0 : 0 ≤ lr) (h1 : lr < 8)
    (h2 : 0 ≤ lc) (h3 : lc < 8) (sr sc : Int) :
    ((⟨sr, sc⟩ : Loc) ∈ ray b 0 1 ⟨lr, lc⟩ 8 ∨
        (⟨sr, sc⟩ : Loc) ∈ ray b 0 (-1) ⟨lr, lc⟩ 8) ↔
      (inBoundsB ⟨sr, sc⟩ = true ∧ b ⟨sr, sc⟩ = 'E' ∧ sr = lr ∧
        (⟨sr, sc⟩ : Loc) ≠ ⟨lr, lc⟩ ∧
        ∀ cc ∈ Finset.Ioo (min lc sc) (max lc sc), b ⟨sr, cc⟩ = 'E') := by
  have norm1 : ∀ j : Nat,
      (⟨lr + (j : Int) * 0, lc + (j : Int) * 1⟩ : Loc) = ⟨lr, lc + j⟩ := by
    intro j
    simp only [Loc.mk.injEq]
    exact ⟨by ring, by ring⟩
  have norm2 : ∀ j : Nat,
      (⟨lr + (j : Int) * 0, lc + (j : Int) * (-1)⟩ : Loc) = ⟨lr, lc - j⟩ := by
    intro j
    simp only [Loc.mk.injEq]
    exact ⟨by ring, by ring⟩
  rw [mem_ray_iff, mem_ray_iff]
  constructor
  · rintro (⟨k, hk1, hk8, hs, hj⟩ | ⟨k, hk1, hk8, hs, hj⟩)
    · rw [norm1 k] at hs
      have hj' : ∀ j : Nat, 1 ≤ j → j ≤ k →
          inBoundsB (⟨lr, lc + j⟩ : Loc) = true ∧ b ⟨lr, lc + j⟩ = 'E' := by
        intro j ha hb2
        rw [← norm1 j]
        exact hj j ha hb2
      simp only [Loc.mk.injEq] at hs
      obtain ⟨hs1, hs2⟩ := hs
      subst hs1
      subst hs2
      have hk' := hj' k hk1 (le_refl k)
      refine ⟨hk'.1, hk'.2, rfl, ?_, ?_⟩
      · intro hcon
        simp only [Loc.mk.injEq] at hcon
        omega
      · intro cc hcc
        rw [min_eq_left (by omega : lc ≤ lc + (k : Int)),
          max_eq_right (by omega : lc ≤ lc + (k : Int)), Finset.mem_Ioo] at hcc
        have hcc1 : 1 ≤ (cc - lc).toNat := by omega
        have hcc2 : (cc - lc).toNat ≤ k := by omega
        have hres := (hj' (cc - lc).toNat hcc1 hcc2).2
        have he : lc + ((cc - lc).toNat : Int) = cc := by omega
        rw [he] at hres
        exact hres
    · rw [norm2 k] at hs
      have hj' : ∀ j : Nat, 1 ≤ j → j ≤ k →
          inBoundsB (⟨lr, lc - j⟩ : Loc) = true ∧ b ⟨lr, lc - j⟩ = 'E' := by
        intro j ha hb2
        rw [← norm2 j]
        exact hj j ha hb2
      simp only [Loc.mk.injEq] at hs
      obtain ⟨hs1, hs2⟩ := hs
      subst hs1
      subst hs2
      have hk' := hj' k hk1 (le_refl k)
      refine ⟨hk'.1, hk'.2, rfl, ?_, ?_⟩
      · intro hcon
        simp only [Loc.mk.injEq] at hcon
        omega
      · intro cc hcc
        rw [min_eq_right (by omega : lc - (k : Int) ≤ lc),
          max_eq_left (by omega : lc - (k : Int) ≤ lc), Finset.mem_Ioo] at hcc
        have hcc1 : 1 ≤ (lc - cc).toNat := by omega
        have hcc2 : (lc - cc).toNat ≤ k := by omega
        have hres := (hj' (lc - cc).toNat hcc1 hcc2).2
        have he : lc - ((lc - cc).toNat : Int) = cc := by omega
        rw [he] at hres
        exact hres
  · rintro ⟨hinB, hbE, hsr, hne, hbet⟩
    subst hsr
    have hscne : sc ≠ lc := by
      intro he
      exact hne (by rw [he])
    obtain ⟨hq0, hq1, hq2, hq3⟩ := (inBoundsB_mk _ _).mp hinB
    rcases lt_or_gt_of_ne hscne with hlt | hgt
    · right
      refine ⟨(lc - sc).toNat, by omega, by omega, ?_, ?_⟩
      · rw [norm2]
        simp only [Loc.mk.injEq, true_and]
        omega
      · intro j hj1 hjk
        rw [norm2 j]
        refine ⟨(inBoundsB_mk _ _).mpr ⟨h0, h1, by omega, by omega⟩, ?_⟩
        by_cases hj2 : j = (lc - sc).toNat
        · subst hj2
          have he : lc - ((lc - sc).toNat : Int) = sc := by omega
          rw [he]
          exact hbE
        · have hmem : lc - (j : Int) ∈ Finset.Ioo (min lc sc) (max lc sc) := by
            rw [min_eq_right (by omega : sc ≤ lc),
              max_eq_left (by omega : sc ≤ lc), Finset.mem_Ioo]
            omega
          exact hbet (lc - (j : Int)) hmem
    · left
      refine ⟨(sc - lc).toNat, by omega, by omega, ?_, ?_⟩
      · rw [norm1]
        simp only [Loc.mk.injEq, true_and]
        omega
      · intro j hj1 hjk
        rw [norm1 j]
        refine ⟨(inBoundsB_mk _ _).mpr ⟨h0, h1, by omega, by omega⟩, ?_⟩
        by_cases hj2 : j = (sc - lc).toNat
        · subst hj2
          have he : lc + ((sc - lc).toNat : Int) = sc := by omega
          rw [he]
          exact hbE
        · have hmem : lc + (j : Int) ∈ Finset.Ioo (min lc sc) (max lc sc) := by
            rw [min_eq_left (by omega : lc ≤ sc),
              max_eq_right (by omega : lc ≤ sc), Finset.mem_Ioo]
            omega
          exact hbet (lc + (j : Int)) hmem

/-- The two vertical rays reach exactly the empty squares of the same column
that are separated from `loc` only by empty squares. -/
theorem vert_mem (b : Board) (lr lc : Int) (h0 : 0 ≤ lr) (h1 : lr < 8)
    (h2 : 0 ≤ lc) (h3 : lc < 8) (sr sc : Int) :
    ((⟨sr, sc⟩ : Loc) ∈ ray b 1 0 ⟨lr, lc⟩ 8 ∨
        (⟨sr, sc⟩ : Loc) ∈ ray b (-1) 0 ⟨lr, lc⟩ 8) ↔
      (inBoundsB ⟨sr, sc⟩ = true ∧ b ⟨sr, sc⟩ = 'E' ∧ sc = lc ∧
        (⟨sr, sc⟩ : Loc) ≠ ⟨lr, lc⟩ ∧
        ∀ rr ∈ Finset.Ioo (min lr sr) (max lr sr), b ⟨rr, sc⟩ = 'E') := by
  have norm1 : ∀ j : Nat,
      (⟨lr + (j : Int) * 1, lc + (j : Int) * 0⟩ : Loc) = ⟨lr + j, lc⟩ := by
    intro j
    simp only [Loc.mk.injEq]
    exact ⟨by ring, by ring⟩
  have norm2 : ∀ j : Nat,
      (⟨lr + (j : Int) * (-1), lc + (j : Int) * 0⟩ : Loc) = ⟨lr - j, lc⟩ := by
    intro j
    simp only [Loc.mk.injEq]
    exact ⟨by ring, by ring⟩
  rw [mem_ray_iff, mem_ray_iff]
  constructor
  · rintro (⟨k, hk1, hk8, hs, hj⟩ | ⟨k, hk1, hk8, hs, hj⟩)
    · rw [norm1 k] at hs
      have hj' : ∀ j : Nat, 1 ≤ j → j ≤ k →
          inBoundsB (⟨lr + j, lc⟩ : Loc) = true ∧ b ⟨lr + j, lc⟩ = 'E' := by
        intro j ha hb2
        rw [← norm1 j]
        exact hj j ha hb2
      simp only [Loc.mk.injEq] at hs
      obtain ⟨hs1, hs2⟩ := hs
      subst hs1
      subst hs2
      have hk' := hj' k hk1 (le_refl k)
      refine ⟨hk'.1, hk'.2, rfl, ?_, ?_⟩
      · intro hcon
        simp only [Loc.mk.injEq] at hcon
        omega
      · intro rr hrr
        rw [min_eq_left (by omega : lr ≤ lr + (k : Int)),
          max_eq_right (by omega : lr ≤ lr + (k : Int)), Finset.mem_Ioo] at hrr
        have hc1 : 1 ≤ (rr - lr).toNat := by omega
        have hc2 : (rr - lr).toNat ≤ k := by omega
        have hres := (hj' (rr - lr).toNat hc1 hc2).2
        have he : lr + ((rr - lr).toNat : Int) = rr := by omega
        rw [he] at hres
        exact hres
    · rw [norm2 k] at hs
      have hj' : ∀ j : Nat, 1 ≤ j → j ≤ k →
          inBoundsB (⟨lr - j, lc⟩ : Loc) = true ∧ b ⟨lr - j, lc⟩ = 'E' := by
        intro j ha hb2
        rw [← norm2 j]
        exact hj j ha hb2
      simp only [Loc.mk.injEq] at hs
      obtain ⟨hs1, hs2⟩ := hs
      subst hs1
      subst hs2
      have hk' := hj' k hk1 (le_refl k)
      refine ⟨hk'.1, hk'.2, rfl, ?_, ?_⟩
      · intro hcon
        simp only [Loc.mk.injEq] at hcon
        omega
      · intro rr hrr
        rw [min_eq_right (by omega : lr - (k : Int) ≤ lr),
          max_eq_left (by omega : lr - (k : Int) ≤ lr), Finset.mem_Ioo] at hrr
        have hc1 : 1 ≤ (lr - rr).toNat := by omega
        have hc2 : (lr - rr).toNat ≤ k := by omega
        have hres := (hj' (lr - rr).toNat hc1 hc2).2
        have he : lr - ((lr - rr).toNat : Int) = rr := by omega
        rw [he] at hres
        exact hres
  · rintro ⟨hinB, hbE, hsc, hne, hbet⟩
    subst hsc
    have hsrne : sr ≠ lr := by
      intro he
      exact hne (by rw [he])
    obtain ⟨hq0, hq1, hq2, hq3⟩ := (inBoundsB_mk _ _).mp hinB
    rcases lt_or_gt_of_ne hsrne with hlt | hgt
    · right
      refine ⟨(lr - sr).toNat, by omega, by omega, ?_, ?_⟩
      · rw [norm2]
        simp only [Loc.mk.injEq, and_true]
        omega
      · intro j hj1 hjk
        rw [norm2 j]
        refine ⟨(inBoundsB_mk _ _).mpr ⟨by omega, by omega, h2, h3⟩, ?_⟩
        by_cases hj2 : j = (lr - sr).toNat
        · subst hj2
          have he : lr - ((lr - sr).toNat : Int) = sr := by omega
          rw [he]
          exact hbE
        · have hmem : lr - (j : Int) ∈ Finset.Ioo (min lr sr) (max lr sr) := by
            rw [min_eq_right (by omega : sr ≤ lr),
              max_eq_left (by omega : sr ≤ lr), Finset.mem_Ioo]
            omega
          exact hbet (lr - (j : Int)) hmem
    · left
      refine ⟨(sr - lr).toNat, by omega, by omega, ?_, ?_⟩
      · rw [norm1]
        simp only [Loc.mk.injEq, and_true]
        omega
      · intro j hj1 hjk
        rw [norm1 j]
        refine ⟨(inBoundsB_mk _ _).mpr ⟨by omega, by omega, h2, h3⟩, ?_⟩
        by_cases hj2 : j = (sr - lr).toNat
        · subst hj2
          have he : lr + ((sr - lr).toNat : Int) = sr := by omega
          rw [he]
          exact hbE
        · have hmem : lr + (j : Int) ∈ Finset.Ioo (min lr sr) (max lr sr) := by
            rw [min_eq_left (by omega : lr ≤ sr),
              max_eq_right (by omega : lr ≤ sr), Finset.mem_Ioo]
            omega
          exact hbet (lr + (j : Int)) hmem

/-- Spec-side rook attack set (following the words of the specification):
the empty squares sharing the rook's row or column, all squares strictly
between being empty (the first occupied square stops the ray and is itself
excluded), clipped to the board. -/
def rookSpec (b : Board) (loc : Loc) : Finset Loc :=
  allSquares.toFinset.filter fun s =>
    b s = 'E' ∧ s ≠ loc ∧
      ((s.row = loc.row ∧
          ∀ cc ∈ Finset.Ioo (min loc.col s.col) (max loc.col s.col),
            b ⟨s.row, cc⟩ = 'E') ∨
        (s.col = loc.col ∧
          ∀ rr ∈ Finset.Ioo (min loc.row s.row) (max loc.row s.row),
            b ⟨rr, s.col⟩ = 'E'))

theorem mem_allSquares (s : Loc) : s ∈ allSquares ↔ inBoundsB s = true := by
  obtain ⟨sr, sc⟩ := s
  rw [inBoundsB_mk]
  constructor
  · intro h
    simp only [allSquares, List.mem_flatMap, List.mem_map, List.mem_range] at h
    obtain ⟨i, hi, j, hj, hh⟩ := h
    simp only [Loc.mk.injEq, Int.ofNat_eq_coe] at hh
    omega
  · intro h
    simp only [allSquares, List.mem_flatMap, List.mem_map, List.mem_range]
    refine ⟨sr.toNat, by omega, sc.toNat, by omega, ?_⟩
    simp only [Loc.mk.injEq, Int.ofNat_eq_coe]
    omega

/-- C8: for every board occupancy and every in-bounds rook square,
`pieceAttackingLocs` of the rook is exactly the spec-side set: the union
over the four orthogonal directions of the squares reached before the first
occupied square or the board edge — the first occupied square excluded, so
only empty squares are attacked. -/
theorem C8_rookAttacks (b : Board) (loc : Loc) (h : inBoundsB loc = true) :
    pieceAttackingLocs b 'R' loc = some (rookSpec b loc) := by
  have e : pieceAttackingLocs b 'R' loc = some (rowAttackingLocs b loc) := rfl
  rw [e]
  congr 1
  obtain ⟨lr, lc⟩ := loc
  obtain ⟨hb0, hb1, hb2, hb3⟩ := (inBoundsB_mk _ _).mp h
  ext s
  obtain ⟨sr, sc⟩ := s
  have hh := horiz_mem b lr lc hb0 hb1 hb2 hb3 sr sc
  have hv := vert_mem b lr lc hb0 hb1 hb2 hb3 sr sc
  simp only [rowAttackingLocs, Finset.mem_union, List.mem_toFinset, rookSpec,
    Finset.mem_filter, mem_allSquares]
  constructor
  · intro hmem
    rcases hmem with ((h10 | h01) | hm10) | h0m1
    · obtain ⟨hA, hB, hC, hD, hE⟩ := hv.mp (Or.inl h10)
      exact ⟨hA, hB, hD, Or.inr ⟨hC, hE⟩⟩
    · obtain ⟨hA, hB, hC, hD, hE⟩ := hh.mp (Or.inl h01)
      exact ⟨hA, hB, hD, Or.inl ⟨hC, hE⟩⟩
    · obtain ⟨hA, hB, hC, hD, hE⟩ := hv.mp (Or.inr hm10)
      exact ⟨hA, hB, hD, Or.inr ⟨hC, hE⟩⟩
    · obtain ⟨hA, hB, hC, hD, hE⟩ := hh.mp (Or.inr h0m1)
      exact ⟨hA, hB, hD, Or.inl ⟨hC, hE⟩⟩
  · rintro ⟨hA, hB, hD, (⟨hC, hE⟩ | ⟨hC, hE⟩)⟩
    · rcases hh.mpr ⟨hA, hB, hC, hD, hE⟩ with h01 | h0m1
      · exact Or.inl (Or.inl (Or.inr h01))
      · exact Or.inr h0m1
    · rcases hv.mpr ⟨hA, hB, hC, hD, hE⟩ with h10 | hm10
      · exact Or.inl (Or.inl (Or.inl h10))
      · exact Or.inl (Or.inr hm10)

/-- C8 witness: the rook on (0,1) of the empty board (the repo's own test
square), via `C8_rookAttacks`. -/
theorem C8_witness :
    pieceAttackingLocs emptyBoard 'R' ⟨0, 1⟩ =
      some (rookSpec emptyBoard ⟨0, 1⟩) :=
  C8_rookAttacks emptyBoard ⟨0, 1⟩ (by decide)

end Martin
